import Mathlib

/-!
# Verification of the B1-shimming core (shimming-toolbox/B1-shimming)

Shallow embedding of the algorithmic content of the Jupyter-book notebooks
`phase_only.ipynb` and `complex_shimming.ipynb`:

* a field map is embedded as a function `Fin m → Fin n → ℂ` (the spatial grid
  is flattened row-major into `Fin m` voxels, `n` transmit elements);
* a weight vector is `Fin n → ℂ`;
* NumPy float arithmetic is modelled by exact real arithmetic; NumPy results
  that are not finite numbers (NaN from `variation` of an empty array or from
  a zero mean) are modelled as `⊤ : WithTop ℝ`, and operations that raise
  (matmul dimension mismatch, `np.max` of an empty array) return
  `Except`/`WithBot` values;
* the repository's `functions.py` is not part of the sources: the conversion
  pair `complex_to_vector`/`vector_to_complex` and the generic scipy solver
  are modelled from the specification (their doc comments say so explicitly).
-/

namespace B1Shim

noncomputable section

open Complex

/-! ## Complex/real parameter conversion (`functions.py`, modelled)

The underlying solver works on real parameter vectors, so every complex
weight is encoded as two real numbers. -/

/-- Modelled from the spec: `vector_to_complex` (from the missing
`functions.py`) decodes a real parameter vector of length `2N` back into the
complex weight vector; the layout is real parts first, imaginary parts
second. -/
def vector_to_complex {n : ℕ} (p : Fin (n + n) → ℝ) : Fin n → ℂ :=
  fun k => ⟨p (Fin.castAdd n k), p (Fin.natAdd n k)⟩

/-- Modelled from the spec: `complex_to_vector` (from the missing
`functions.py`) encodes a complex weight vector as `2N` real parameters
(real and imaginary parts per element). -/
def complex_to_vector {n : ℕ} (w : Fin n → ℂ) : Fin (n + n) → ℝ :=
  Fin.addCases (fun k => (w k).re) (fun k => (w k).im)

lemma v2c_c2v {n : ℕ} (w : Fin n → ℂ) :
    vector_to_complex (complex_to_vector w) = w := by
  funext k
  show (⟨complex_to_vector w (Fin.castAdd n k),
         complex_to_vector w (Fin.natAdd n k)⟩ : ℂ) = w k
  simp only [complex_to_vector, Fin.addCases_left, Fin.addCases_right]

lemma c2v_v2c {n : ℕ} (p : Fin (n + n) → ℝ) :
    complex_to_vector (vector_to_complex p) = p := by
  funext i
  refine Fin.addCases (fun k => ?_) (fun k => ?_) i <;>
    simp only [complex_to_vector, vector_to_complex,
      Fin.addCases_left, Fin.addCases_right]

/-! ## Combined field and weighted sum (`b1_maps @ weights`) -/

/-- The combined field `b1_maps @ w`: the complex-weighted sum of the
per-element field maps at each voxel. -/
def combinedField {m n : ℕ} (b1 : Fin m → Fin n → ℂ) (w : Fin n → ℂ)
    (v : Fin m) : ℂ :=
  ∑ k, b1 v k * w k

/-- The weighted sum `b1_maps @ weights` when the weights arrive as a plain
sequence whose length need not match the element count.  NumPy's `matmul`
raises `ValueError` when the core dimensions mismatch; the failure is
modelled by `Except.error "InvalidInput"`. -/
def matVec {m n : ℕ} (b1 : Fin m → Fin n → ℂ) (w : List ℂ) :
    Except String (Fin m → ℂ) :=
  if h : w.length = n then
    Except.ok (fun v => ∑ k, b1 v k * w.get (Fin.cast h.symm k))
  else
    Except.error "InvalidInput"

/-! ## Claim theorems: round trip and basic algebra -/

/-- C8: encoding a complex weight vector to its real parameterization with
`complex_to_vector` and decoding back with `vector_to_complex` reproduces the
original vector exactly, for any `N`. -/
theorem C8_round_trip {n : ℕ} (w : Fin n → ℂ) :
    vector_to_complex (complex_to_vector w) = w := by
  funext k
  show (⟨complex_to_vector w (Fin.castAdd n k),
         complex_to_vector w (Fin.natAdd n k)⟩ : ℂ) = w k
  simp only [complex_to_vector, Fin.addCases_left, Fin.addCases_right]

/-- C9: when the weight-vector length differs from the field map's element
count, the weighted-sum operation fails with an `InvalidInput` condition
reported to the caller (NumPy `matmul` raises; nothing is retried). -/
theorem C9_length_mismatch_error {m n : ℕ} (b1 : Fin m → Fin n → ℂ)
    (w : List ℂ) (h : w.length ≠ n) :
    matVec b1 w = Except.error "InvalidInput" := by
  rw [matVec, dif_neg h]

/-- Witness for C9: a length-1 weight list against a 2-element field map is
rejected. -/
theorem C9_length_mismatch_error_witness :
    ([(1 : ℂ)].length ≠ 2) ∧
      matVec (fun (_ : Fin 1) (_ : Fin 2) => (1 : ℂ)) [(1 : ℂ)] =
        Except.error "InvalidInput" :=
  ⟨by decide, C9_length_mismatch_error _ [(1 : ℂ)] (by decide)⟩

/-- C7: for any field map, any per-element unit-magnitude weight vector `w`
and any real phase angle `θ`, multiplying every component of `w` by
`exp (i θ)` leaves the magnitude of the combined field unchanged at every
voxel. -/
theorem C7_global_phase_invariance {m n : ℕ} (b1 : Fin m → Fin n → ℂ)
    (w : Fin n → ℂ) (hw : ∀ k, Complex.abs (w k) = 1) (θ : ℝ) (v : Fin m) :
    Complex.abs (combinedField b1 (fun k => Complex.exp (θ * Complex.I) * w k) v) =
      Complex.abs (combinedField b1 w v) := by
  have hpull : combinedField b1 (fun k => Complex.exp (θ * Complex.I) * w k) v =
      Complex.exp (θ * Complex.I) * combinedField b1 w v := by
    unfold combinedField
    rw [Finset.mul_sum]
    refine Finset.sum_congr rfl fun k _ => by ring
  rw [hpull, map_mul, Complex.abs_exp_ofReal_mul_I, one_mul]

/-- Witness for C7 at the two-element weight vector `(1, i)` (unit magnitude
per element) and phase angle `π`. -/
theorem C7_global_phase_invariance_witness :
    (∀ k : Fin 2, Complex.abs ((![1, Complex.I]) k) = 1) ∧
      Complex.abs (combinedField (fun (_ : Fin 1) (_ : Fin 2) => (1 : ℂ))
          (fun k => Complex.exp ((Real.pi : ℝ) * Complex.I) * (![1, Complex.I]) k) 0) =
        Complex.abs (combinedField (fun (_ : Fin 1) (_ : Fin 2) => (1 : ℂ))
          (![1, Complex.I]) 0) := by
  have hw : ∀ k : Fin 2, Complex.abs ((![1, Complex.I]) k) = 1 := by
    intro k
    fin_cases k <;> simp
  exact ⟨hw, C7_global_phase_invariance _ _ hw Real.pi 0⟩

/-! ## SAR evaluator (`max_SAR` in `complex_shimming.ipynb`)

```python
def max_SAR(weights, vop):
    # computes max local SAR
    return np.max(np.real(np.matmul(np.matmul(np.conj(weights).T, vop.T), weights)))
```

The VOP stack `vop` is an `(N, N, n_vop)` complex array (the same
last-axis-stacking layout as `b1_maps`), so `vop.T` has shape
`(n_vop, N, N)` and its `k`-th matrix is the transpose `Qₖᵀ` of the `k`-th
VOP matrix `Qₖ = vop[:, :, k]`.  The two `matmul` calls therefore produce,
for each `k`, the scalar `conj(w)ᵀ Qₖᵀ w`, i.e. `∑ i j, conj (w i) * Q j i * w j`.
`np.max` of the empty array raises, modelled by `⊥ : WithBot ℝ`. -/

/-- The per-VOP scalar computed by the source: `Re (conj(w)ᵀ Qᵀ w)`. -/
def sarValue {n : ℕ} (w : Fin n → ℂ) (Q : Matrix (Fin n) (Fin n) ℂ) : ℝ :=
  (∑ i, ∑ j, (starRingEnd ℂ) (w i) * Q j i * w j).re

/-- Embedding of `max_SAR` from the source: the maximum of `sarValue w Q` over the VOP
set. -/
def max_SAR {n : ℕ} (w : Fin n → ℂ)
    (vops : List (Matrix (Fin n) (Fin n) ℂ)) : WithBot ℝ :=
  (vops.map (sarValue w)).maximum

/-- The per-VOP scalar in the spec's words (§4.3): the real part of the
Hermitian quadratic form `wᴴ Q w`.  Stated from the spec for comparison
with the source-derived `sarValue`. -/
def sarValueSpec {n : ℕ} (w : Fin n → ℂ) (Q : Matrix (Fin n) (Fin n) ℂ) : ℝ :=
  (∑ i, ∑ j, (starRingEnd ℂ) (w i) * Q i j * w j).re

/-- Embedding of `max_SAR` as the spec describes it: the maximum of `Re (wᴴ Q w)` over
the VOP set. -/
def max_SAR_spec {n : ℕ} (w : Fin n → ℂ)
    (vops : List (Matrix (Fin n) (Fin n) ℂ)) : WithBot ℝ :=
  (vops.map (sarValueSpec w)).maximum

/-- C1 (evaluation at the failing input): for the weight vector `w = (1, i)`
and the VOP set containing the single Hermitian (positive-semidefinite)
matrix `Q = [[1, i], [-i, 1]]`, the source's `max_SAR` returns `4`, whereas
the maximum of `Re (wᴴ Q w)` claimed by the spec is `0`.  The code evaluates
the quadratic form at the transposed VOP matrix (equivalently, at the
conjugated weights), contradicting the notebook's own formula
`SAR = wᴴ Q w`. -/
theorem C1_sar_transposed_eval :
    (!![1, Complex.I; -Complex.I, 1]).IsHermitian ∧
      max_SAR ![1, Complex.I] [!![1, Complex.I; -Complex.I, 1]] =
        ((4 : ℝ) : WithBot ℝ) ∧
      max_SAR_spec ![1, Complex.I] [!![1, Complex.I; -Complex.I, 1]] =
        ((0 : ℝ) : WithBot ℝ) := by
  refine ⟨Matrix.IsHermitian.ext fun i j => ?_, ?_, ?_⟩
  · fin_cases i <;> fin_cases j <;> simp
  · have h : sarValue ![1, Complex.I] (!![1, Complex.I; -Complex.I, 1]) = 4 := by
      simp [sarValue, Fin.sum_univ_two]
      norm_num [Complex.ext_iff]
    rw [max_SAR, List.map_cons, List.map_nil, h, List.maximum_singleton]
  · have h : sarValueSpec ![1, Complex.I] (!![1, Complex.I; -Complex.I, 1]) = 0 := by
      simp [sarValueSpec, Fin.sum_univ_two]
    rw [max_SAR_spec, List.map_cons, List.map_nil, h, List.maximum_singleton]

/-! ## Coefficient of variation (`scipy.stats.variation`) -/

/-- Embedding of `np.mean`: sum divided by length (`0/0` for the empty list, matching
Lean's division-by-zero convention; `variation` below treats the empty case
separately). -/
def listMean (xs : List ℝ) : ℝ := xs.sum / xs.length

/-- Embedding of `np.std` (population standard deviation, `ddof = 0`). -/
def listStd (xs : List ℝ) : ℝ :=
  Real.sqrt (listMean (xs.map fun x => (x - listMean xs) ^ 2))

/-- Embedding of `scipy.stats.variation`: standard deviation divided by mean.  On an
empty array, or when the mean is zero, NumPy produces a non-finite value
(NaN or inf, with a RuntimeWarning — no exception); these are modelled as
`⊤`. -/
def variation (xs : List ℝ) : WithTop ℝ :=
  if xs = [] ∨ listMean xs = 0 then ⊤
  else ((listStd xs / listMean xs : ℝ) : WithTop ℝ)

/-! ## Region of interest (`b1_roi` in `complex_shimming.ipynb`)

```python
b1_roi = np.reshape(b1_maps * mask[:, :, np.newaxis], [x * y, n_Tx])
b1_roi = b1_roi[b1_roi[:, 0] != 0, :]
```

The spatial grid is already flattened into `Fin m` (the `reshape`), so the
first line is the pointwise masking `maskedMaps` and the second keeps the
voxels whose masked first-element value is nonzero. -/

/-- Embedding of `b1_maps * mask[:, :, np.newaxis]`: zero out every voxel outside the
mask. -/
def maskedMaps {m q : ℕ} (b1 : Fin m → Fin q → ℂ) (mask : Fin m → Bool) :
    Fin m → Fin q → ℂ :=
  fun v k => if mask v then b1 v k else 0

/-- The voxels whose rows survive `b1_roi[b1_roi[:, 0] != 0, :]`. -/
def roiVoxels {m n : ℕ} (b1 : Fin m → Fin (n + 1) → ℂ) (mask : Fin m → Bool) :
    List (Fin m) :=
  (List.finRange m).filter fun v => decide (maskedMaps b1 mask v 0 ≠ 0)

/-- The rows of `b1_roi`: the masked per-element values of the surviving
voxels. -/
def roiRows {m n : ℕ} (b1 : Fin m → Fin (n + 1) → ℂ) (mask : Fin m → Bool) :
    List (Fin (n + 1) → ℂ) :=
  (roiVoxels b1 mask).map (maskedMaps b1 mask)

/-- Embedding of `np.abs(rows @ w)`: the magnitudes of the combined field on a list of
roi rows. -/
def magList {q : ℕ} (rows : List (Fin q → ℂ)) (w : Fin q → ℂ) : List ℝ :=
  rows.map fun r => Complex.abs (∑ k, r k * w k)

/-- Embedding of `cost_function` from `complex_shimming.ipynb`:
`variation(np.abs(b1_roi @ vector_to_complex(weights)))`. -/
def cost_function {q : ℕ} (rows : List (Fin q → ℂ)) (p : Fin (q + q) → ℝ) :
    WithTop ℝ :=
  variation (magList rows (vector_to_complex p))

/-- The same coefficient-of-variation cost as a function of the complex
weight vector (`cost_function` composed with the parameter encoding). -/
def covOf {q : ℕ} (rows : List (Fin q → ℂ)) (w : Fin q → ℂ) : WithTop ℝ :=
  variation (magList rows w)

lemma cost_function_c2v {q : ℕ} (rows : List (Fin q → ℂ)) (w : Fin q → ℂ) :
    cost_function rows (complex_to_vector w) = covOf rows w := by
  rw [cost_function, v2c_c2v, covOf]

/-- Embedding of `cost_function_MLS` from `complex_shimming.ipynb`:
`np.sum((np.abs(b1_roi @ vector_to_complex(weights)) - target) ** 2)`. -/
def cost_function_MLS {q : ℕ} (rows : List (Fin q → ℂ)) (target : ℝ)
    (p : Fin (q + q) → ℝ) : ℝ :=
  ((magList rows (vector_to_complex p)).map fun x => (x - target) ^ 2).sum

/-- The voxels selected by a mask (order of the flattened grid). -/
def maskVoxels {m : ℕ} (mask : Fin m → Bool) : List (Fin m) :=
  (List.finRange m).filter mask

/-- The displayed coefficient of variation
`variation(np.abs((b1_maps @ w)[mask]))`: CoV of the combined-field
magnitude over the masked voxels. -/
def maskCoV {m q : ℕ} (b1 : Fin m → Fin q → ℂ) (mask : Fin m → Bool)
    (w : Fin q → ℂ) : WithTop ℝ :=
  variation ((maskVoxels mask).map fun v => Complex.abs (combinedField b1 w v))

/-! ## Default masks (C4) -/

/-- Embedding of the mask derived in `phase_only.ipynb`: `mask = b1_maps[:, :, 0] != 0`. -/
def maskPO {m n : ℕ} (b1 : Fin m → Fin (n + 1) → ℂ) : Fin m → Bool :=
  fun v => decide (b1 v 0 ≠ 0)

/-- Embedding of the mask derived in `complex_shimming.ipynb`: `mask = b1_maps.sum(-1) != 0`. -/
def maskCS {m q : ℕ} (b1 : Fin m → Fin q → ℂ) : Fin m → Bool :=
  fun v => decide ((∑ k, b1 v k) ≠ 0)

/-! ## The generic solver (modelled) -/

/-- Modelled from the spec: `scipy.optimize.minimize` is the "generic
external optimizer dependency" — a local, descent-based minimizer whose only
contract here is that the best iterate found is returned (§4.2 Algorithm,
§7 NonConvergence).  `iters` abstracts the internal sequence of candidate
points the solver evaluates; the model returns the best of the initial
point and the iterates (the earliest in case of ties). -/
def bestIterate {α β : Type*} [LinearOrder β] (cost : α → β) (x0 : α)
    (iters : List α) : α :=
  iters.foldl (fun b y => if cost y < cost b then y else b) x0

lemma bestIterate_mem {α β : Type*} [LinearOrder β] (cost : α → β) :
    ∀ (iters : List α) (x0 : α), bestIterate cost x0 iters ∈ x0 :: iters := by
  intro iters
  induction iters with
  | nil => intro x0; simp [bestIterate]
  | cons y ys ih =>
    intro x0
    by_cases hc : cost y < cost x0
    · rw [bestIterate, List.foldl_cons, if_pos hc]
      exact List.mem_cons_of_mem x0 (ih y)
    · rw [bestIterate, List.foldl_cons, if_neg hc]
      show bestIterate cost x0 ys ∈ x0 :: y :: ys
      rcases List.mem_cons.mp (ih x0) with h1 | h1
      · rw [h1]; exact List.mem_cons_self _ _
      · exact List.mem_cons_of_mem x0 (List.mem_cons_of_mem y h1)

lemma bestIterate_le {α β : Type*} [LinearOrder β] (cost : α → β) :
    ∀ (iters : List α) (x0 : α), ∀ z ∈ x0 :: iters,
      cost (bestIterate cost x0 iters) ≤ cost z := by
  intro iters
  induction iters with
  | nil =>
    intro x0 z hz
    rw [List.mem_singleton] at hz
    rw [hz, bestIterate, List.foldl_nil]
  | cons y ys ih =>
    intro x0 z hz
    by_cases hc : cost y < cost x0
    · rw [bestIterate, List.foldl_cons, if_pos hc]
      show cost (bestIterate cost y ys) ≤ cost z
      rcases List.mem_cons.mp hz with h1 | h1
      · rw [h1]
        exact le_trans (ih y y (List.mem_cons_self _ _)) (le_of_lt hc)
      · exact ih y z h1
    · rw [bestIterate, List.foldl_cons, if_neg hc]
      show cost (bestIterate cost x0 ys) ≤ cost z
      rcases List.mem_cons.mp hz with h1 | h1
      · rw [h1]; exact ih x0 x0 (List.mem_cons_self _ _)
      · rcases List.mem_cons.mp h1 with h2 | h2
        · rw [h2]
          exact le_trans (ih x0 x0 (List.mem_cons_self _ _)) (not_lt.mp hc)
        · exact ih x0 z (List.mem_cons_of_mem x0 h2)

/-- Embedding of `weights_PM` from `complex_shimming.ipynb`:
`vector_to_complex(scipy.optimize.minimize(cost_function, complex_to_vector(initial_weights)).x)`,
with the solver modelled by `bestIterate`. -/
def weights_PM {m n : ℕ} (b1 : Fin m → Fin (n + 1) → ℂ) (mask : Fin m → Bool)
    (w0 : Fin (n + 1) → ℂ) (iters : List (Fin (n + 1 + (n + 1)) → ℝ)) :
    Fin (n + 1) → ℂ :=
  vector_to_complex
    (bestIterate (cost_function (roiRows b1 mask)) (complex_to_vector w0) iters)

/-- The SAR inequality constraint from `complex_shimming.ipynb`:
`lambda x: -max_SAR(vector_to_complex(x), vop) + SAR_limit` must be
non-negative, i.e. `max_SAR(vector_to_complex(x), vop) ≤ SAR_limit`. -/
def sarFeasible {q : ℕ} (vops : List (Matrix (Fin q) (Fin q) ℂ)) (limit : ℝ)
    (p : Fin (q + q) → ℝ) : Prop :=
  max_SAR (vector_to_complex p) vops ≤ (limit : WithBot ℝ)

instance {q : ℕ} (vops : List (Matrix (Fin q) (Fin q) ℂ)) (limit : ℝ)
    (p : Fin (q + q) → ℝ) : Decidable (sarFeasible vops limit p) := by
  unfold sarFeasible; infer_instance

/-- Modelled from the spec: under an inequality constraint the solver ranks
constraint-violating candidates as unusable (`⊤`), so the best-effort result
is the best iterate that satisfies the constraint, when one exists (§4.2
Guarantees, §7 ConstraintInfeasible). -/
def constrainedCost {q : ℕ} (rows : List (Fin q → ℂ))
    (vops : List (Matrix (Fin q) (Fin q) ℂ)) (limit : ℝ)
    (p : Fin (q + q) → ℝ) : WithTop ℝ :=
  if sarFeasible vops limit p then cost_function rows p else ⊤

/-- Embedding of `weights_SAR` from `complex_shimming.ipynb`:
`vector_to_complex(scipy.optimize.minimize(cost_function, initial_weights, constraints=cons).x)`,
with the constrained solver modelled by `bestIterate` over
`constrainedCost`. -/
def weights_SAR {m n : ℕ} (b1 : Fin m → Fin (n + 1) → ℂ) (mask : Fin m → Bool)
    (vops : List (Matrix (Fin (n + 1)) (Fin (n + 1)) ℂ)) (limit : ℝ)
    (w0 : Fin (n + 1) → ℂ) (iters : List (Fin (n + 1 + (n + 1)) → ℝ)) :
    Fin (n + 1) → ℂ :=
  vector_to_complex
    (bestIterate (constrainedCost (roiRows b1 mask) vops limit)
      (complex_to_vector w0) iters)

/-! ## Which voxels feed the objectives (C2, C4, C3) -/

lemma mem_roiVoxels {m n : ℕ} (b1 : Fin m → Fin (n + 1) → ℂ)
    (mask : Fin m → Bool) (v : Fin m) :
    v ∈ roiVoxels b1 mask ↔ mask v = true ∧ b1 v 0 ≠ 0 := by
  rw [roiVoxels, List.mem_filter]
  simp only [List.mem_finRange, true_and, decide_eq_true_eq]
  unfold maskedMaps
  by_cases h : mask v
  · simp [h]
  · simp [h]

lemma roiVoxels_eq_nil {m n : ℕ} (b1 : Fin m → Fin (n + 1) → ℂ)
    (mask : Fin m → Bool) (hm : ∀ v, mask v = false) :
    roiVoxels b1 mask = [] := by
  rw [roiVoxels, List.filter_eq_nil_iff]
  intro v _
  simp [maskedMaps, hm v]

/-- C2 (amended): both objectives (`cost_function`, `cost_function_MLS`) are
computed from the rows `roiRows b1 mask`, and a voxel's row is kept there
exactly when the voxel is selected by the mask AND its first-element field
value is nonzero.  In particular no voxel outside the mask contributes, but
a masked voxel whose first-element value is zero is silently dropped. -/
theorem C2_roi_voxel_characterization {m n : ℕ} (b1 : Fin m → Fin (n + 1) → ℂ)
    (mask : Fin m → Bool) (v : Fin m) :
    v ∈ roiVoxels b1 mask ↔ mask v = true ∧ b1 v 0 ≠ 0 :=
  mem_roiVoxels b1 mask v

/-- Counterexample to C2 as stated: the single-voxel field map with element
values `(0, 1)` and the all-ones mask select voxel `0`, yet that masked
voxel contributes no row to the objective. -/
theorem C2_masked_voxel_dropped :
    (fun _ : Fin 1 => true) 0 = true ∧
      (0 : Fin 1) ∉ roiVoxels (fun _ : Fin 1 => ![(0 : ℂ), 1])
        (fun _ : Fin 1 => true) := by
  refine ⟨rfl, ?_⟩
  rw [mem_roiVoxels]
  simp

/-- C4 (amended): when the notebooks derive the mask themselves,
`phase_only.ipynb` uses "first-element slice nonzero" (`maskPO`) while
`complex_shimming.ipynb` uses "element-sum nonzero" (`maskCS`); with the
latter, the voxels actually feeding the optimization are those with nonzero
element sum AND nonzero first-element value. -/
theorem C4_default_masks {m n : ℕ} (b1 : Fin m → Fin (n + 1) → ℂ) (v : Fin m) :
    (maskPO b1 v = true ↔ b1 v 0 ≠ 0) ∧
      (v ∈ roiVoxels b1 (maskCS b1) ↔ (∑ k, b1 v k) ≠ 0 ∧ b1 v 0 ≠ 0) := by
  constructor
  · simp [maskPO]
  · rw [mem_roiVoxels]
    simp [maskCS]

/-- Counterexample to C4 as stated: for the single-voxel field map with
element values `(1, -1)` the first-element slice is nonzero, but the mask
derived in `complex_shimming.ipynb` (`b1_maps.sum(-1) != 0`) excludes the
voxel, so the mask used is not "first-element slice nonzero". -/
theorem C4_sum_mask_differs :
    (fun _ : Fin 1 => ![(1 : ℂ), -1]) 0 0 ≠ 0 ∧
      maskCS (fun _ : Fin 1 => ![(1 : ℂ), -1]) 0 = false := by
  constructor
  · simp
  · simp [maskCS, Fin.sum_univ_two]

/-- C3 (amended): if the mask selects zero voxels, no `InvalidInput`
condition is raised — the CoV objective instead evaluates to an undefined
(NaN, here `⊤`) value at every candidate, and the optimizer still returns a
weight vector (one of the candidate points). -/
theorem C3_empty_mask_nan {m n : ℕ} (b1 : Fin m → Fin (n + 1) → ℂ)
    (mask : Fin m → Bool) (w0 : Fin (n + 1) → ℂ)
    (iters : List (Fin (n + 1 + (n + 1)) → ℝ)) (hm : ∀ v, mask v = false) :
    (∀ p, cost_function (roiRows b1 mask) p = ⊤) ∧
      weights_PM b1 mask w0 iters ∈ w0 :: iters.map vector_to_complex := by
  have hroi : roiRows b1 mask = [] := by
    rw [roiRows, roiVoxels_eq_nil b1 mask hm]
    rfl
  constructor
  · intro p
    rw [cost_function, hroi]
    show variation [] = ⊤
    rw [variation, if_pos (Or.inl rfl)]
  · rw [weights_PM]
    rcases List.mem_cons.mp
        (bestIterate_mem (cost_function (roiRows b1 mask)) iters
          (complex_to_vector w0)) with h | h
    · rw [h, v2c_c2v]
      exact List.mem_cons_self _ _
    · exact List.mem_cons_of_mem _ (List.mem_map_of_mem _ h)

/-- Witness for C3 (amended) at a concrete all-false mask. -/
theorem C3_empty_mask_nan_witness :
    (∀ v : Fin 1, (fun _ : Fin 1 => false) v = false) ∧
      ((∀ p, cost_function
          (roiRows (fun _ : Fin 1 => fun _ : Fin 1 => (1 : ℂ))
            (fun _ : Fin 1 => false)) p = ⊤) ∧
        weights_PM (fun _ : Fin 1 => fun _ : Fin 1 => (1 : ℂ))
          (fun _ : Fin 1 => false) (fun _ => 1) [] ∈
            (fun _ : Fin 1 => (1 : ℂ)) :: List.map vector_to_complex []) :=
  ⟨fun _ => rfl,
    C3_empty_mask_nan (fun _ : Fin 1 => fun _ : Fin 1 => (1 : ℂ))
      (fun _ : Fin 1 => false) (fun _ => 1) [] (fun _ => rfl)⟩

/-- Counterexample to C3 as stated: with a mask selecting zero voxels the
code neither raises `InvalidInput` nor withholds a result — the objective is
NaN-valued (`⊤`) and the optimizer returns a weight vector (the initial
one). -/
theorem C3_nan_objective_returned :
    cost_function
        (roiRows (fun _ : Fin 1 => fun _ : Fin 1 => (1 : ℂ))
          (fun _ : Fin 1 => false))
        (complex_to_vector fun _ => 1) = ⊤ ∧
      weights_PM (fun _ : Fin 1 => fun _ : Fin 1 => (1 : ℂ))
        (fun _ : Fin 1 => false) (fun _ => 1) [] = fun _ => 1 := by
  constructor
  · have hroi : roiRows (fun _ : Fin 1 => fun _ : Fin 1 => (1 : ℂ))
        (fun _ : Fin 1 => false) = [] := by
      rw [roiRows, roiVoxels_eq_nil _ _ fun _ => rfl]
      rfl
    rw [cost_function, hroi]
    show variation [] = ⊤
    rw [variation, if_pos (Or.inl rfl)]
  · rw [weights_PM]
    have h : bestIterate
        (cost_function (roiRows (fun _ : Fin 1 => fun _ : Fin 1 => (1 : ℂ))
          (fun _ : Fin 1 => false)))
        (complex_to_vector fun _ => 1) [] = complex_to_vector fun _ => 1 := rfl
    rw [h]
    exact v2c_c2v _

/-! ## SAR-constrained optimization (C5) -/

/-- C5: whenever the (modelled, best-effort) constrained solver encounters at
least one candidate that satisfies the SAR constraint and has a well-defined
objective — in particular in the notebook's scenario where the limit is the
SAR of the CP-mode weights — the returned weight vector `weights_SAR`
satisfies `max_SAR ≤ limit`. -/
theorem C5_sar_constraint_satisfied {m n : ℕ} (b1 : Fin m → Fin (n + 1) → ℂ)
    (mask : Fin m → Bool) (vops : List (Matrix (Fin (n + 1)) (Fin (n + 1)) ℂ))
    (limit : ℝ) (w0 : Fin (n + 1) → ℂ)
    (iters : List (Fin (n + 1 + (n + 1)) → ℝ))
    (h : ∃ p ∈ complex_to_vector w0 :: iters,
      sarFeasible vops limit p ∧ cost_function (roiRows b1 mask) p ≠ ⊤) :
    max_SAR (weights_SAR b1 mask vops limit w0 iters) vops ≤
      (limit : WithBot ℝ) := by
  obtain ⟨p, hp, hfeas, hcost⟩ := h
  have hle := bestIterate_le (constrainedCost (roiRows b1 mask) vops limit)
    iters (complex_to_vector w0) p hp
  have hp' : constrainedCost (roiRows b1 mask) vops limit p =
      cost_function (roiRows b1 mask) p := if_pos hfeas
  by_contra hnot
  have hbad : constrainedCost (roiRows b1 mask) vops limit
      (bestIterate (constrainedCost (roiRows b1 mask) vops limit)
        (complex_to_vector w0) iters) = ⊤ :=
    if_neg fun hf => hnot hf
  rw [hbad, hp'] at hle
  exact hcost (top_le_iff.mp hle)

/-- Witness for C5: one element, one voxel, the zero VOP matrix, limit `0`,
all-ones initial weights, no further iterates; the initial point is feasible
with a defined objective, and the theorem yields `max_SAR ≤ 0`. -/
theorem C5_sar_constraint_satisfied_witness :
    (∃ p ∈ complex_to_vector (fun _ : Fin 1 => (1 : ℂ)) ::
        ([] : List (Fin (0 + 1 + (0 + 1)) → ℝ)),
      sarFeasible [(0 : Matrix (Fin 1) (Fin 1) ℂ)] 0 p ∧
        cost_function
          (roiRows (fun _ : Fin 1 => fun _ : Fin 1 => (1 : ℂ))
            (fun _ : Fin 1 => true)) p ≠ ⊤) ∧
      max_SAR (weights_SAR (fun _ : Fin 1 => fun _ : Fin 1 => (1 : ℂ))
          (fun _ : Fin 1 => true) [(0 : Matrix (Fin 1) (Fin 1) ℂ)] 0
          (fun _ => 1) []) [(0 : Matrix (Fin 1) (Fin 1) ℂ)] ≤
        ((0 : ℝ) : WithBot ℝ) := by
  have hfeas : sarFeasible [(0 : Matrix (Fin 1) (Fin 1) ℂ)] 0
      (complex_to_vector (fun _ : Fin 1 => (1 : ℂ))) := by
    rw [sarFeasible, v2c_c2v]
    have hs : sarValue (fun _ : Fin 1 => (1 : ℂ))
        (0 : Matrix (Fin 1) (Fin 1) ℂ) = 0 := by
      simp [sarValue]
    rw [max_SAR, List.map_cons, List.map_nil, hs, List.maximum_singleton]
  have hrows : roiRows (fun _ : Fin 1 => fun _ : Fin 1 => (1 : ℂ))
      (fun _ : Fin 1 => true) = [fun _ : Fin 1 => (1 : ℂ)] := by
    have hv : roiVoxels (fun _ : Fin 1 => fun _ : Fin 1 => (1 : ℂ))
        (fun _ : Fin 1 => true) = List.finRange 1 := by
      rw [roiVoxels, List.filter_eq_self]
      intro v _
      simp [maskedMaps]
    rw [roiRows, hv, show List.finRange 1 = [(0 : Fin 1)] from rfl,
      List.map_cons, List.map_nil]
    have hrow : maskedMaps (fun _ : Fin 1 => fun _ : Fin 1 => (1 : ℂ))
        (fun _ : Fin 1 => true) 0 = fun _ : Fin 1 => (1 : ℂ) := by
      funext k
      simp [maskedMaps]
    rw [hrow]
  have hcost : cost_function
      (roiRows (fun _ : Fin 1 => fun _ : Fin 1 => (1 : ℂ))
        (fun _ : Fin 1 => true))
      (complex_to_vector (fun _ : Fin 1 => (1 : ℂ))) ≠ ⊤ := by
    rw [cost_function, v2c_c2v, hrows]
    have hmag : magList [fun _ : Fin 1 => (1 : ℂ)] (fun _ : Fin 1 => (1 : ℂ)) =
        [1] := by
      rw [magList, List.map_cons, List.map_nil]
      congr 1
      simp
    rw [hmag, variation, if_neg]
    · exact WithTop.coe_ne_top
    · rw [not_or]
      constructor
      · simp
      · rw [listMean]
        norm_num
  exact ⟨⟨complex_to_vector (fun _ : Fin 1 => (1 : ℂ)),
      List.mem_cons_self _ _, hfeas, hcost⟩,
    C5_sar_constraint_satisfied _ _ _ _ _ _
      ⟨complex_to_vector (fun _ : Fin 1 => (1 : ℂ)),
        List.mem_cons_self _ _, hfeas, hcost⟩⟩

/-! ## Global scaling invariance of the CoV cost (C10) -/

lemma listSum_map_mul (a : ℝ) (xs : List ℝ) :
    (xs.map fun x => a * x).sum = a * xs.sum := by
  induction xs with
  | nil => simp
  | cons y ys ih => simp [ih, mul_add]

lemma listMean_map_mul (a : ℝ) (xs : List ℝ) :
    listMean (xs.map fun x => a * x) = a * listMean xs := by
  rw [listMean, listMean, List.length_map, listSum_map_mul, mul_div_assoc]

lemma listStd_map_mul (a : ℝ) (ha : 0 ≤ a) (xs : List ℝ) :
    listStd (xs.map fun x => a * x) = a * listStd xs := by
  rw [listStd, listStd, listMean_map_mul, List.map_map]
  have h1 : ((fun x => (x - a * listMean xs) ^ 2) ∘ fun x => a * x) =
      (fun y => a ^ 2 * y) ∘ fun x => (x - listMean xs) ^ 2 := by
    funext x
    simp only [Function.comp_apply]
    ring
  rw [h1, ← List.map_map, listMean_map_mul, Real.sqrt_mul (sq_nonneg a),
    Real.sqrt_sq ha]

lemma variation_map_mul (a : ℝ) (ha : 0 < a) (xs : List ℝ)
    (hmean : listMean xs ≠ 0) :
    variation (xs.map fun x => a * x) = variation xs := by
  have hne : xs ≠ [] := by
    intro h
    apply hmean
    rw [h, listMean]
    simp
  rw [variation, variation, if_neg, if_neg]
  · rw [listStd_map_mul a ha.le, listMean_map_mul,
      mul_div_mul_left _ _ (ne_of_gt ha)]
  · exact fun h => h.elim hne hmean
  · rw [not_or]
    refine ⟨by simp [hne], ?_⟩
    rw [listMean_map_mul]
    exact mul_ne_zero (ne_of_gt ha) hmean

lemma magList_smul {q : ℕ} (rows : List (Fin q → ℂ)) (w : Fin q → ℂ) (c : ℂ) :
    magList rows (fun k => c * w k) =
      (magList rows w).map fun x => Complex.abs c * x := by
  rw [magList, magList, List.map_map]
  refine List.map_congr_left fun r _ => ?_
  simp only [Function.comp_apply]
  have h : (∑ k, r k * (c * w k)) = c * ∑ k, r k * w k := by
    rw [Finset.mul_sum]
    exact Finset.sum_congr rfl fun k _ => by ring
  rw [h, map_mul]

/-- C10: the MinimizeCoV cost function is invariant under a global complex
scaling of the weight vector — for any nonzero scalar `c` (and a roi whose
mean combined-field magnitude at `w` is nonzero) the cost at `c • w` equals
the cost at `w`; consequently its minimizer is never unique. -/
theorem C10_scaling_invariance {q : ℕ} (rows : List (Fin q → ℂ))
    (w : Fin q → ℂ) (c : ℂ) (hc : c ≠ 0)
    (hmean : listMean (magList rows w) ≠ 0) :
    cost_function rows (complex_to_vector fun k => c * w k) =
      cost_function rows (complex_to_vector w) := by
  rw [cost_function_c2v, cost_function_c2v, covOf, covOf, magList_smul]
  exact variation_map_mul (Complex.abs c) (Complex.abs.pos hc) _ hmean

/-- Witness for C10 at the one-row roi `[1]`, weights `1`, scalar `c = 2`. -/
theorem C10_scaling_invariance_witness :
    ((2 : ℂ) ≠ 0 ∧
      listMean (magList [fun _ : Fin 1 => (1 : ℂ)] (fun _ : Fin 1 => (1 : ℂ))) ≠ 0) ∧
      cost_function [fun _ : Fin 1 => (1 : ℂ)]
          (complex_to_vector fun k : Fin 1 => (2 : ℂ) * (fun _ : Fin 1 => (1 : ℂ)) k) =
        cost_function [fun _ : Fin 1 => (1 : ℂ)]
          (complex_to_vector fun _ : Fin 1 => (1 : ℂ)) := by
  have hmag : magList [fun _ : Fin 1 => (1 : ℂ)] (fun _ : Fin 1 => (1 : ℂ)) =
      [1] := by
    rw [magList, List.map_cons, List.map_nil]
    congr 1
    simp
  have hmean : listMean (magList [fun _ : Fin 1 => (1 : ℂ)]
      (fun _ : Fin 1 => (1 : ℂ))) ≠ 0 := by
    rw [hmag, listMean]
    norm_num
  exact ⟨⟨two_ne_zero, hmean⟩,
    C10_scaling_invariance [fun _ : Fin 1 => (1 : ℂ)] (fun _ : Fin 1 => (1 : ℂ))
      2 two_ne_zero hmean⟩

/-! ## MinimizeCoV descent (C6) -/

lemma variation_eq_of_ne (xs : List ℝ) (hne : xs ≠ []) (hm : listMean xs ≠ 0) :
    variation xs = ((listStd xs / listMean xs : ℝ) : WithTop ℝ) := by
  rw [variation, if_neg]
  exact fun h => h.elim hne hm

/-- C6 (amended): the (modelled, descent-based) MinimizeCoV optimization
returns a weight vector whose coefficient of variation over the rows the
cost function actually uses — the masked voxels with nonzero first-element
field value — is at most that of the supplied initial weights.  (The CoV
displayed over the full mask need not improve; see the counterexample.) -/
theorem C6_roi_cov_descent {m n : ℕ} (b1 : Fin m → Fin (n + 1) → ℂ)
    (mask : Fin m → Bool) (w0 : Fin (n + 1) → ℂ)
    (iters : List (Fin (n + 1 + (n + 1)) → ℝ)) :
    covOf (roiRows b1 mask) (weights_PM b1 mask w0 iters) ≤
      covOf (roiRows b1 mask) w0 := by
  have h1 := bestIterate_le (cost_function (roiRows b1 mask)) iters
    (complex_to_vector w0) (complex_to_vector w0) (List.mem_cons_self _ _)
  rw [cost_function_c2v] at h1
  exact h1

/-- Counterexample to C6 as stated: on the three-voxel field map
`[(1,0), (1,1), (0,1)]` with the all-true mask, starting from `w0 = (1, 1)`
and with the solver taking the (strictly roi-cost-improving) iterate
`(1, 0)`, the returned weights have a larger CoV over the masked voxels
than the initial weights: the voxel `(0, 1)` is invisible to the cost
function but counted by the displayed CoV. -/
theorem C6_mask_cov_increases :
    ¬ (maskCoV (![![1, 0], ![1, 1], ![0, 1]] : Fin 3 → Fin 2 → ℂ)
          (fun _ => true)
          (weights_PM (![![1, 0], ![1, 1], ![0, 1]] : Fin 3 → Fin 2 → ℂ)
            (fun _ => true) ![1, 1] [complex_to_vector ![1, 0]]) ≤
        maskCoV (![![1, 0], ![1, 1], ![0, 1]] : Fin 3 → Fin 2 → ℂ)
          (fun _ => true) ![1, 1]) := by
  set b1c : Fin 3 → Fin 2 → ℂ := ![![1, 0], ![1, 1], ![0, 1]] with hb1c
  -- the roi rows: voxels 0 and 1 survive the first-element filter
  have hvox : roiVoxels b1c (fun _ => true) = [0, 1] := by
    have hfr : List.finRange 3 = [0, 1, 2] := by decide
    rw [roiVoxels, hfr]
    simp [maskedMaps, hb1c]
  have hmm : maskedMaps b1c (fun _ => true) = b1c := by
    funext v k
    simp [maskedMaps]
  have hrows : roiRows b1c (fun _ => true) = [b1c 0, b1c 1] := by
    rw [roiRows, hvox, hmm, List.map_cons, List.map_cons, List.map_nil]
  -- the two cost values seen by the solver
  have hmagy : magList [b1c 0, b1c 1] (![1, 0]) = [1, 1] := by
    simp [magList, hb1c, Fin.sum_univ_two]
  have hmagx : magList [b1c 0, b1c 1] (![1, 1]) = [1, 2] := by
    simp [magList, hb1c, Fin.sum_univ_two]
    norm_num [Complex.ext_iff]
  have hcy : cost_function (roiRows b1c (fun _ => true))
      (complex_to_vector ![1, 0]) = ((0 : ℝ) : WithTop ℝ) := by
    rw [cost_function, v2c_c2v, hrows, hmagy]
    have hm : listMean [1, 1] = 1 := by rw [listMean]; norm_num
    have hs : listStd [1, 1] = 0 := by
      rw [listStd, hm, List.map_cons, List.map_cons, List.map_nil]
      have : listMean [(1 - 1 : ℝ) ^ 2, (1 - 1) ^ 2] = 0 := by
        rw [listMean]; norm_num
      rw [this, Real.sqrt_zero]
    rw [variation_eq_of_ne _ (by simp) (by rw [hm]; norm_num), hs, hm]
    norm_num
  have hcx : cost_function (roiRows b1c (fun _ => true))
      (complex_to_vector ![1, 1]) = ((1 / 3 : ℝ) : WithTop ℝ) := by
    rw [cost_function, v2c_c2v, hrows, hmagx]
    have hm : listMean [1, 2] = 3 / 2 := by rw [listMean]; norm_num
    have hs : listStd [1, 2] = 1 / 2 := by
      rw [listStd, hm, List.map_cons, List.map_cons, List.map_nil]
      have h24 : listMean [(1 - 3 / 2 : ℝ) ^ 2, (2 - 3 / 2) ^ 2] = (1 / 2) ^ 2 := by
        rw [listMean]; norm_num
      rw [h24, Real.sqrt_sq (by norm_num)]
    rw [variation_eq_of_ne _ (by simp) (by rw [hm]; norm_num), hs, hm]
    norm_num
  -- the solver moves to the roi-optimal iterate
  have hlt : cost_function (roiRows b1c (fun _ => true))
        (complex_to_vector ![1, 0]) <
      cost_function (roiRows b1c (fun _ => true)) (complex_to_vector ![1, 1]) := by
    rw [hcy, hcx]
    exact_mod_cast (by norm_num : (0 : ℝ) < 1 / 3)
  have hbest : weights_PM b1c (fun _ => true) ![1, 1] [complex_to_vector ![1, 0]] =
      ![1, 0] := by
    rw [weights_PM, bestIterate, List.foldl_cons, List.foldl_nil, if_pos hlt,
      v2c_c2v]
  rw [hbest]
  -- the displayed CoV over all three masked voxels
  have hmv : maskVoxels (fun _ : Fin 3 => true) = [0, 1, 2] := by decide
  have hfy : ((maskVoxels (fun _ : Fin 3 => true)).map fun v =>
      Complex.abs (combinedField b1c (![1, 0]) v)) = [1, 1, 0] := by
    rw [hmv]
    simp [combinedField, hb1c, Fin.sum_univ_two]
  have hfx : ((maskVoxels (fun _ : Fin 3 => true)).map fun v =>
      Complex.abs (combinedField b1c (![1, 1]) v)) = [1, 2, 1] := by
    rw [hmv]
    simp [combinedField, hb1c, Fin.sum_univ_two, Matrix.vecHead, Matrix.vecTail]
    norm_num [Complex.ext_iff]
  have hcovy : maskCoV b1c (fun _ => true) (![1, 0]) =
      ((Real.sqrt (2 / 9) / (2 / 3) : ℝ) : WithTop ℝ) := by
    rw [maskCoV, hfy]
    have hm : listMean [1, 1, 0] = 2 / 3 := by rw [listMean]; norm_num
    have hs : listStd [1, 1, 0] = Real.sqrt (2 / 9) := by
      rw [listStd, hm]
      congr 1
      rw [List.map_cons, List.map_cons, List.map_cons, List.map_nil, listMean]
      norm_num
    rw [variation_eq_of_ne _ (by simp) (by rw [hm]; norm_num), hs, hm]
  have hcovx : maskCoV b1c (fun _ => true) (![1, 1]) =
      ((Real.sqrt (2 / 9) / (4 / 3) : ℝ) : WithTop ℝ) := by
    rw [maskCoV, hfx]
    have hm : listMean [1, 2, 1] = 4 / 3 := by rw [listMean]; norm_num
    have hs : listStd [1, 2, 1] = Real.sqrt (2 / 9) := by
      rw [listStd, hm]
      congr 1
      rw [List.map_cons, List.map_cons, List.map_cons, List.map_nil, listMean]
      norm_num
    rw [variation_eq_of_ne _ (by simp) (by rw [hm]; norm_num), hs, hm]
  rw [hcovy, hcovx, not_le]
  have hspos : 0 < Real.sqrt (2 / 9) := Real.sqrt_pos.mpr (by norm_num)
  exact_mod_cast div_lt_div_of_pos_left hspos (by norm_num) (by norm_num)

end

end B1Shim
